import Mathlib

/-
Verification of the btclib scalar-multiplication engine (curvemult2.py,
curvegroup2.py) and its ECDSA layer (dsa.py).

The curve-group collaborator (btclib.curvegroup / btclib.curve: point addition,
doubling, negation, affine conversion) is external to the verified modules and
is described by the specification only through its group-law contract; points
in Jacobian coordinates are therefore embedded as elements of an abstract
additive commutative group `G`, with the Jacobian infinity encoding (Z = 0)
embedded as the group zero.  Python exceptions are embedded as `Except`
values, and Python's arbitrary-precision integers as `Nat` / `Int`.
-/

namespace Btclib

/-- Errors raised by the scalar-multiplication functions.  The source raises
`ValueError` with distinct messages; the spec's taxonomy names them
`InvalidScalar` (negative multiplier) and `InvalidWindow` (w <= 0). -/
inductive ECError
  | invalidScalar
  | invalidWindow
  deriving DecidableEq, Repr

/-- Errors raised inside the ECDSA layer (dsa.py).  Each constructor stands
for one `raise`/`assert` site or one failing collaborator call. -/
inductive DsaError
  | invalidPrivateKey
  | invalidNonce
  | zeroSig
  | sigRange
  | derError
  | pubkeyError
  | infinitePubKey
  | infiniteResult
  | invalidSig
  deriving DecidableEq, Repr

/-! ## Digit decomposition (curvemult2.numberToBase)

`numberToBase(n, b)` returns the digits of `n` in base `b`, most significant
first, with `[0]` for `n = 0`.  We first build the least-significant-first
list and reverse it, exactly like the Python `digits[::-1]`. -/

/-- Least-significant-first digit list of `n` in base `b` (empty for `n = 0`):
the body of `numberToBase`'s `while n:` loop before the final reversal.
The `2 ≤ b` guard is only there to make termination evident; every call site
uses a base that is at least 2. -/
def toDigitsRev (b : Nat) (n : Nat) : List Nat :=
  if h : 2 ≤ b ∧ n ≠ 0 then (n % b) :: toDigitsRev b (n / b) else []
termination_by n
decreasing_by exact Nat.div_lt_self (Nat.pos_of_ne_zero h.2) h.1

/-- curvemult2.numberToBase: digits of `n` written in basis `b`, MSB first. -/
def numberToBase (n b : Nat) : List Nat :=
  if n = 0 then [0] else (toDigitsRev b n).reverse

/-- Modelled from the spec: `curvegroup.convert_number_to_base`, the digit
sequence of a scalar in a chosen radix, most-significant digit first (spec
section 3, "Digit sequence"); it agrees with curvemult2's own `numberToBase`. -/
def convert_number_to_base (n b : Nat) : List Nat :=
  numberToBase n b

/-- The value of an MSB-first digit list in base `b`. -/
def valBase (b : Nat) (l : List Nat) : Nat :=
  l.foldl (fun a d => b * a + d) 0

lemma foldl_valBase (b : Nat) :
    ∀ (l : List Nat) (k : Nat),
      l.foldl (fun a d => b * a + d) k = k * b ^ l.length + valBase b l := by
  intro l
  induction l with
  | nil => intro k; simp [valBase]
  | cons d rest ih =>
    intro k
    have h1 : (d :: rest).foldl (fun a d => b * a + d) k
        = rest.foldl (fun a d => b * a + d) (b * k + d) := rfl
    have h2 : valBase b (d :: rest) = rest.foldl (fun a d => b * a + d) d := by
      simp [valBase]
    rw [h1, ih (b * k + d), h2]
    have h3 : rest.foldl (fun a d => b * a + d) d = d * b ^ rest.length + valBase b rest := by
      have := ih d
      simpa using this
    rw [h3]
    simp [List.length_cons, pow_succ]
    ring

lemma valBase_cons (b d : Nat) (rest : List Nat) :
    valBase b (d :: rest) = d * b ^ rest.length + valBase b rest := by
  have h2 : valBase b (d :: rest) = rest.foldl (fun a d => b * a + d) d := by
    simp [valBase]
  rw [h2]
  have := foldl_valBase b rest d
  simpa using this

lemma valBase_append (b : Nat) (l1 l2 : List Nat) :
    valBase b (l1 ++ l2) = valBase b l1 * b ^ l2.length + valBase b l2 := by
  have h : valBase b (l1 ++ l2) = l2.foldl (fun a d => b * a + d) (valBase b l1) := by
    simp [valBase, List.foldl_append]
  rw [h, foldl_valBase]

lemma toDigitsRev_lt (b : Nat) : ∀ n, ∀ d ∈ toDigitsRev b n, d < b := by
  intro n
  induction n using Nat.strong_induction_on with
  | _ n ih =>
    rw [toDigitsRev]
    split
    · next h =>
      intro d hd
      rcases List.mem_cons.mp hd with h1 | h2
      · subst h1; exact Nat.mod_lt _ (by omega)
      · exact ih (n / b) (Nat.div_lt_self (Nat.pos_of_ne_zero h.2) h.1) d h2
    · intro d hd; simp at hd

lemma toDigitsRev_foldr (b : Nat) (hb : 2 ≤ b) :
    ∀ n, (toDigitsRev b n).foldr (fun d a => b * a + d) 0 = n := by
  intro n
  induction n using Nat.strong_induction_on with
  | _ n ih =>
    rw [toDigitsRev]
    split
    · next h =>
      simp only [List.foldr_cons]
      rw [ih (n / b) (Nat.div_lt_self (Nat.pos_of_ne_zero h.2) h.1)]
      exact Nat.div_add_mod n b
    · next h =>
      simp only [List.foldr_nil]
      push_neg at h
      have := h hb
      omega

lemma numberToBase_ne_nil (n b : Nat) (hb : 2 ≤ b) : numberToBase n b ≠ [] := by
  unfold numberToBase
  split
  · simp
  · next h =>
    intro hc
    rw [List.reverse_eq_nil_iff, toDigitsRev, dif_pos ⟨hb, h⟩] at hc
    simp at hc

lemma valBase_numberToBase (b : Nat) (hb : 2 ≤ b) (n : Nat) :
    valBase b (numberToBase n b) = n := by
  unfold numberToBase
  split
  · next h => subst h; simp [valBase]
  · next h =>
    show valBase b (toDigitsRev b n).reverse = n
    have h1 : valBase b (toDigitsRev b n).reverse
        = (toDigitsRev b n).foldr (fun d a => b * a + d) 0 := by
      unfold valBase
      rw [List.foldl_reverse]
    rw [h1, toDigitsRev_foldr b hb n]

lemma numberToBase_digit_lt (n b : Nat) (hb : 2 ≤ b) :
    ∀ d ∈ numberToBase n b, d < b := by
  unfold numberToBase
  split
  · intro d hd
    simp at hd
    omega
  · intro d hd
    rw [List.mem_reverse] at hd
    exact toDigitsRev_lt b n d hd

/-! ## The five scalar multipliers

Jacobian points are embedded as elements of an abstract additive commutative
group `G` (the curve group of the spec, section 6): `ec._add_jac` is `+`,
`ec._double_jac P` is `P + P`, `ec.negate_jac` is negation, and the infinity
encoding `INFJ` (any triple with Z = 0) is `0`.  The Python `ValueError`s
become `Except ECError`. -/

variable {G : Type} [AddCommGroup G] [DecidableEq G]

/-- The bit loop of `_mult_jac_mont_ladder` (curvemult2.py lines 39-45), with
state `(R, Q)`: on bit 0 first `Q := R + Q` then `R := R + R`; on bit 1 first
`R := R + Q` then `Q := Q + Q`. -/
def montLoop : List Nat → G → G → G
  | [], R, _ => R
  | b :: rest, R, Q =>
    if b = 0 then montLoop rest (R + R) (R + Q)
    else montLoop rest (R + Q) (Q + Q)

/-- curvemult2._mult_jac_mont_ladder.  `bin(m)[2:]` is the MSB-first binary
digit list of `m`, which is `numberToBase m 2` (both give `[0]` for `m = 0`). -/
def _mult_jac_mont_ladder (m : Int) (Q : G) : Except ECError G :=
  if m < 0 then .error .invalidScalar
  else if Q = 0 then .ok Q
  else .ok (montLoop (numberToBase m.toNat 2) 0 Q)

/-- The linear precomputation table of `_mult_jac_base_3` and
`_mult_jac_fixed_window`, as a function of the index: `T[0] = INFJ`,
`T[i] = T[i-1] + Q`. -/
def addmulT (Q : G) : Nat → G
  | 0 => 0
  | i + 1 => addmulT Q i + Q

/-- The digit loop of `_mult_jac_base_3` (curvemult2.py lines 117-120):
`R2 = R + R; R = R2 + R; R = R + T[digit]`. -/
def base3Loop (Q : G) : List Nat → G → G
  | [], R => R
  | d :: rest, R => base3Loop Q rest (((R + R) + R) + addmulT Q d)

/-- curvemult2._mult_jac_base_3. -/
def _mult_jac_base_3 (m : Int) (Q : G) : Except ECError G :=
  if m < 0 then .error .invalidScalar
  else if Q = 0 then .ok Q
  else
    match numberToBase m.toNat 3 with
    | [] => .ok 0   -- unreachable: numberToBase never returns [] for base 3
    | d :: rest => .ok (base3Loop Q rest (addmulT Q d))

/-- `w` successive doublings `R := R + R` (the `for j in range(w)` loop). -/
def doubleIter : Nat → G → G
  | 0, R => R
  | n + 1, R => doubleIter n (R + R)

/-- The digit loop of `_mult_jac_fixed_window` (curvemult2.py lines 171-174):
double `w` times, then add `T[digit]`. -/
def fixedLoop (w : Nat) (Q : G) : List Nat → G → G
  | [], R => R
  | d :: rest, R => fixedLoop w Q rest (doubleIter w R + addmulT Q d)

/-- curvemult2._mult_jac_fixed_window; the argument order `(m, w, Q)` follows
the source.  The checks appear in source order: negative scalar, infinity
point, non-positive window (`w = 0` on `Nat` is Python's `w <= 0`). -/
def _mult_jac_fixed_window (m : Int) (w : Nat) (Q : G) : Except ECError G :=
  if m < 0 then .error .invalidScalar
  else if Q = 0 then .ok Q
  else if w = 0 then .error .invalidWindow
  else
    match numberToBase m.toNat (2 ^ w) with
    | [] => .ok 0   -- unreachable
    | d :: rest => .ok (fixedLoop w Q rest (addmulT Q d))

/-- The sliding-window precomputation table (curvegroup2.py lines 85-90) as a
function of the index: `T[0]` is `Q` doubled `w - 1` times, `T[i] = T[i-1] + Q`. -/
def slidingT (Q : G) (w : Nat) : Nat → G
  | 0 => doubleIter (w - 1) Q
  | i + 1 => slidingT Q w i + Q

/-- The main loop of `_mult_sliding_window` (curvegroup2.py lines 94-117),
recursing on the suffix of the digit list that starts at index `i`.  In the
short trailing-window branch (`j < w`) the source performs a plain
double-and-add over the remaining digits and returns immediately.  In the
full-window branch the source advances `i` by `j`; we recurse on
`rest.drop (j - 1)`, which equals `(d :: rest).drop j` whenever `j ≥ 1`
(always the case for the reachable windows `w ≥ 1`) and makes termination
structural. -/
def slidingLoop (w : Nat) (Q : G) : List Nat → G → G
  | [], R => R
  | d :: rest, R =>
    if d = 0 then slidingLoop w Q rest (R + R)
    else
      let len := rest.length + 1
      let j := if len < w then len else w
      let t := (List.take j (d :: rest)).foldl (fun a b => 2 * a + b) 0
      if j < w then
        (List.take j (d :: rest)).foldl
          (fun r b => if b = 1 then (r + r) + Q else r + r) R
      else
        slidingLoop w Q (rest.drop (j - 1))
          (doubleIter w R + slidingT Q w (t - 2 ^ (w - 1)))
termination_by l => l.length
decreasing_by
  · simp
  · simp only [List.length_drop, List.length_cons]
    omega

/-- curvegroup2._mult_sliding_window. -/
def _mult_sliding_window (m : Int) (Q : G) (w : Nat) : Except ECError G :=
  if m < 0 then .error .invalidScalar
  else if w = 0 then .error .invalidWindow
  else .ok (slidingLoop w Q (convert_number_to_base m.toNat 2) 0)

/-! ## wNAF (curvegroup2._mult_w_NAF) -/

/-- curvegroup2.mods, the signed modulo.  Python compares `M >= w2 / 2` with
an exact halving (float division of a power of two); written here as
`2 * M ≥ w2`.  Lean's `%` on `Int` is Euclidean and agrees with Python's `%`
for the positive modulus `w2`. -/
def mods (m : Int) (w : Nat) : Int :=
  let w2 : Int := 2 ^ w
  let M := m % w2
  if 2 * M ≥ w2 then M - w2 else M

/-- The digit-extraction `while m > 0:` loop of `_mult_w_NAF` (curvegroup2.py
lines 145-152), producing the signed digits least-significant first.  The
source loop is unbounded; `fuel` bounds the number of iterations and `none`
means the loop has not finished within `fuel` iterations (for `w = 1` it
never does). -/
def wnafDigits (w : Nat) : Nat → Nat → Option (List Int)
  | 0, m => if m = 0 then some [] else none
  | fuel + 1, m =>
    if m = 0 then some []
    else if m % 2 = 1 then
      let d := mods (m : Int) w
      (wnafDigits w fuel (((m : Int) - d).toNat / 2)).map (fun M => d :: M)
    else
      (wnafDigits w fuel (m / 2)).map (fun M => (0 : Int) :: M)

/-- The positive half of the wNAF table (curvegroup2.py lines 158-161) as a
function of the index: `T[0] = Q`, `T[i] = T[i-1] + Q2` with `Q2 = 2Q`. -/
def wnafPosT (Q Q2 : G) : Nat → G
  | 0 => Q
  | i + 1 => wnafPosT Q Q2 i + Q2

/-- The full wNAF table: indices below `2^w / 2` hold the positive odd
multiples, the remaining indices hold their negations (`ec.negate_jac`,
modelled from the spec as group negation). -/
def wnafT (Q : G) (w : Nat) (i : Nat) : G :=
  let Q2 := Q + Q
  let half := 2 ^ w / 2
  if i < half then wnafPosT Q Q2 i else - wnafPosT Q Q2 (i - half)

/-- The digit loop of `_mult_w_NAF` (curvegroup2.py lines 165-174), processing
the digit list MSB-first (the source iterates `j = p-1 .. 0` over the
LSB-first list).  The Python floor divisions `(M[j]-1)//2` and `(M[j]+1)//2`
are exact here, so the rounding convention is irrelevant. -/
def wnafLoop (Q : G) (w : Nat) : List Int → G → G
  | [], R => R
  | d :: rest, R =>
    let R1 := R + R
    let R2 :=
      if d = 0 then R1
      else if d > 0 then R1 + wnafT Q w ((d.toNat - 1) / 2)
      else R1 + wnafT Q w ((2 ^ w / 2 : Int) - (d + 1) / 2).toNat
    wnafLoop Q w rest R2

/-- curvegroup2._mult_w_NAF.  `fuel` bounds the unbounded digit loop; a
`none` result means the source function does not terminate within `fuel`
iterations. -/
def _mult_w_NAF (m : Int) (Q : G) (w : Nat) (fuel : Nat) : Option (Except ECError G) :=
  if m < 0 then some (.error .invalidScalar)
  else if w = 0 then some (.error .invalidWindow)
  else if m = 0 then some (.ok 0)
  else (wnafDigits w fuel m.toNat).map (fun M => .ok (wnafLoop Q w M.reverse 0))

/-! ## Correctness of the multipliers over the abstract group -/

lemma addmulT_eq (Q : G) : ∀ i, addmulT Q i = i • Q := by
  intro i
  induction i with
  | zero => simp [addmulT]
  | succ i ih => rw [addmulT, ih, succ_nsmul]

lemma doubleIter_eq (n : Nat) : ∀ R : G, doubleIter n R = 2 ^ n • R := by
  induction n with
  | zero => intro R; simp [doubleIter]
  | succ n ih =>
    intro R
    rw [doubleIter, ih (R + R)]
    rw [pow_succ, mul_comm, mul_nsmul]
    congr 1
    rw [two_nsmul]

lemma nsmul_add_nsmul (Q0 : G) (a b : Nat) : a • Q0 + b • Q0 = (a + b) • Q0 :=
  (add_nsmul Q0 a b).symm

lemma montLoop_spec (Q0 : G) :
    ∀ (bits : List Nat), (∀ b ∈ bits, b ≤ 1) → ∀ (k : Nat),
      montLoop bits (k • Q0) ((k + 1) • Q0)
        = (k * 2 ^ bits.length + valBase 2 bits) • Q0 := by
  intro bits
  induction bits with
  | nil => intro _ k; simp [montLoop, valBase]
  | cons b rest ih =>
    intro hb k
    have hrest : ∀ x ∈ rest, x ≤ 1 := fun x hx => hb x (List.mem_cons_of_mem b hx)
    rw [montLoop]
    split
    · next h0 =>
      subst h0
      rw [nsmul_add_nsmul, nsmul_add_nsmul]
      have e1 : k + k = 2 * k := by ring
      have e2 : k + (k + 1) = 2 * k + 1 := by ring
      rw [e1, e2, ih hrest (2 * k)]
      congr 1
      rw [valBase_cons]
      simp [List.length_cons, pow_succ]
      ring
    · next h0 =>
      have hb1 : b = 1 := by
        have := hb b (List.mem_cons_self b rest)
        omega
      subst hb1
      rw [nsmul_add_nsmul, nsmul_add_nsmul]
      have e3 : k + (k + 1) = 2 * k + 1 := by ring
      have e2 : (k + 1) + (k + 1) = (2 * k + 1) + 1 := by ring
      rw [e3, e2, ih hrest (2 * k + 1)]
      congr 1
      rw [valBase_cons]
      simp [List.length_cons, pow_succ]
      ring

lemma montLadder_ok (m : Int) (Q : G) (hm : 0 ≤ m) :
    _mult_jac_mont_ladder m Q = .ok (m • Q) := by
  unfold _mult_jac_mont_ladder
  rw [if_neg (by omega)]
  have hz : m • Q = m.toNat • Q := by
    rw [← natCast_zsmul, Int.toNat_of_nonneg hm]
  by_cases hQ : Q = 0
  · rw [if_pos hQ, hQ]
    simp
  · rw [if_neg hQ]
    have h := montLoop_spec Q (numberToBase m.toNat 2)
      (fun d hd => by have := numberToBase_digit_lt m.toNat 2 (by omega) d hd; omega) 0
    simp only [zero_nsmul, zero_mul, zero_add, one_nsmul] at h
    rw [h, valBase_numberToBase 2 (by omega), hz]

lemma base3Loop_spec (Q : G) :
    ∀ (l : List Nat) (k : Nat),
      base3Loop Q l (k • Q) = (k * 3 ^ l.length + valBase 3 l) • Q := by
  intro l
  induction l with
  | nil => intro k; simp [base3Loop, valBase]
  | cons d rest ih =>
    intro k
    rw [base3Loop, addmulT_eq, nsmul_add_nsmul, nsmul_add_nsmul, nsmul_add_nsmul]
    have e1 : k + k + k + d = 3 * k + d := by ring
    rw [e1, ih (3 * k + d)]
    congr 1
    rw [valBase_cons]
    simp [List.length_cons, pow_succ]
    ring

lemma base3_ok (m : Int) (Q : G) (hm : 0 ≤ m) :
    _mult_jac_base_3 m Q = .ok (m • Q) := by
  unfold _mult_jac_base_3
  rw [if_neg (by omega)]
  have hz : m • Q = m.toNat • Q := by
    rw [← natCast_zsmul, Int.toNat_of_nonneg hm]
  by_cases hQ : Q = 0
  · rw [if_pos hQ, hQ]
    simp
  · rw [if_neg hQ]
    rcases hM : numberToBase m.toNat 3 with _ | ⟨d, rest⟩
    · exact absurd hM (numberToBase_ne_nil m.toNat 3 (by omega))
    · have hd : base3Loop Q rest (addmulT Q d) = (d * 3 ^ rest.length + valBase 3 rest) • Q := by
        rw [addmulT_eq, base3Loop_spec]
      show Except.ok (base3Loop Q rest (addmulT Q d)) = Except.ok (m • Q)
      rw [hd]
      have hv : valBase 3 (numberToBase m.toNat 3) = m.toNat :=
        valBase_numberToBase 3 (by omega) m.toNat
      rw [hM, valBase_cons] at hv
      rw [hz, ← hv]

lemma fixedLoop_spec (w : Nat) (Q : G) :
    ∀ (l : List Nat) (k : Nat),
      fixedLoop w Q l (k • Q) = (k * (2 ^ w) ^ l.length + valBase (2 ^ w) l) • Q := by
  intro l
  induction l with
  | nil => intro k; simp [fixedLoop, valBase]
  | cons d rest ih =>
    intro k
    rw [fixedLoop, addmulT_eq, doubleIter_eq]
    rw [← mul_nsmul Q k (2 ^ w)]
    rw [nsmul_add_nsmul, ih (k * 2 ^ w + d)]
    congr 1
    rw [valBase_cons]
    simp [List.length_cons, pow_succ]
    ring

lemma fixedWindow_ok (m : Int) (w : Nat) (Q : G) (hm : 0 ≤ m) (hw : 1 ≤ w) :
    _mult_jac_fixed_window m w Q = .ok (m • Q) := by
  unfold _mult_jac_fixed_window
  rw [if_neg (by omega)]
  have hz : m • Q = m.toNat • Q := by
    rw [← natCast_zsmul, Int.toNat_of_nonneg hm]
  have hb2 : 2 ≤ 2 ^ w := by
    calc 2 = 2 ^ 1 := by norm_num
    _ ≤ 2 ^ w := Nat.pow_le_pow_right (by omega) hw
  by_cases hQ : Q = 0
  · rw [if_pos hQ, hQ]
    simp
  · rw [if_neg hQ, if_neg (by omega)]
    rcases hM : numberToBase m.toNat (2 ^ w) with _ | ⟨d, rest⟩
    · exact absurd hM (numberToBase_ne_nil m.toNat (2 ^ w) hb2)
    · have hd : fixedLoop w Q rest (addmulT Q d)
          = (d * (2 ^ w) ^ rest.length + valBase (2 ^ w) rest) • Q := by
        rw [addmulT_eq, fixedLoop_spec]
      show Except.ok (fixedLoop w Q rest (addmulT Q d)) = Except.ok (m • Q)
      rw [hd]
      have hv : valBase (2 ^ w) (numberToBase m.toNat (2 ^ w)) = m.toNat :=
        valBase_numberToBase (2 ^ w) hb2 m.toNat
      rw [hM, valBase_cons] at hv
      rw [hz, ← hv]

lemma slidingT_eq (Q : G) (w : Nat) : ∀ i, slidingT Q w i = (2 ^ (w - 1) + i) • Q := by
  intro i
  induction i with
  | zero => rw [slidingT, doubleIter_eq]; simp
  | succ i ih =>
    rw [slidingT, ih]
    calc (2 ^ (w - 1) + i) • Q + Q = (2 ^ (w - 1) + i) • Q + 1 • Q := by rw [one_nsmul]
    _ = (2 ^ (w - 1) + i + 1) • Q := nsmul_add_nsmul Q _ 1
    _ = (2 ^ (w - 1) + (i + 1)) • Q := by ring_nf

lemma dblAddFold_spec (Q : G) :
    ∀ (l : List Nat), (∀ d ∈ l, d ≤ 1) → ∀ k : Nat,
      l.foldl (fun r b => if b = 1 then (r + r) + Q else r + r) (k • Q)
        = (k * 2 ^ l.length + valBase 2 l) • Q := by
  intro l
  induction l with
  | nil => intro _ k; simp [valBase]
  | cons d rest ih =>
    intro hl k
    have hrest : ∀ x ∈ rest, x ≤ 1 := fun x hx => hl x (List.mem_cons_of_mem d hx)
    have hd := hl d (List.mem_cons_self d rest)
    simp only [List.foldl_cons]
    by_cases h1 : d = 1
    · subst h1
      rw [if_pos rfl]
      have e : (k • Q + k • Q) + Q = (2 * k + 1) • Q := by
        calc (k • Q + k • Q) + Q = (k + k) • Q + Q := by rw [nsmul_add_nsmul]
        _ = (k + k) • Q + 1 • Q := by rw [one_nsmul]
        _ = (k + k + 1) • Q := nsmul_add_nsmul Q _ 1
        _ = (2 * k + 1) • Q := by ring_nf
      rw [e, ih hrest (2 * k + 1)]
      congr 1
      rw [valBase_cons]
      simp [List.length_cons, pow_succ]
      ring
    · rw [if_neg h1]
      have e : (k • Q + k • Q) = (2 * k) • Q := by
        rw [nsmul_add_nsmul]
        congr 1
        ring
      rw [e, ih hrest (2 * k)]
      congr 1
      rw [valBase_cons]
      have hd0 : d = 0 := by omega
      subst hd0
      simp [List.length_cons, pow_succ]
      ring

lemma slidingLoop_spec (w : Nat) (hw : 1 ≤ w) (Q : G) :
    ∀ (N : Nat) (digits : List Nat), digits.length ≤ N → (∀ d ∈ digits, d ≤ 1) →
      ∀ k : Nat, slidingLoop w Q digits (k • Q)
        = (k * 2 ^ digits.length + valBase 2 digits) • Q := by
  intro N
  induction N with
  | zero =>
    intro digits hlen _ k
    have hnil : digits = [] := List.length_eq_zero.mp (Nat.le_zero.mp hlen)
    subst hnil
    simp [slidingLoop, valBase]
  | succ N ih =>
    intro digits hlen hdig k
    match digits with
    | [] => simp [slidingLoop, valBase]
    | d :: rest =>
      have hrest : ∀ x ∈ rest, x ≤ 1 := fun x hx => hdig x (List.mem_cons_of_mem d hx)
      have hlenr : rest.length ≤ N := by
        have := hlen
        simp only [List.length_cons] at this
        omega
      by_cases hd0 : d = 0
      · subst hd0
        rw [slidingLoop, if_pos rfl]
        have e : (k • Q + k • Q) = (2 * k) • Q := by
          rw [nsmul_add_nsmul]; congr 1; ring
        rw [e, ih rest hlenr hrest (2 * k)]
        congr 1
        rw [valBase_cons]
        simp [List.length_cons, pow_succ]
        ring
      · rw [slidingLoop, if_neg hd0]
        simp only []
        by_cases hlw : rest.length + 1 < w
        · -- short trailing window: the whole remaining suffix is consumed
          rw [if_pos hlw, if_pos hlw]
          have htake : List.take (rest.length + 1) (d :: rest) = d :: rest := by
            have := List.take_length (l := d :: rest)
            simpa [List.length_cons] using this
          rw [htake]
          have := dblAddFold_spec Q (d :: rest) hdig k
          simpa [List.length_cons] using this
        · -- full window of width w
          rw [if_neg hlw, if_neg (lt_irrefl w)]
          have hwsub : w - 1 + 1 = w := by omega
          have hrw : w - 1 ≤ rest.length := by omega
          -- the window is d :: take (w-1) rest, of length w, with leading digit 1
          have htake : List.take w (d :: rest) = d :: List.take (w - 1) rest := by
            conv_lhs => rw [← hwsub]
            rw [List.take_succ_cons]
          have hlt : (List.take (w - 1) rest).length = w - 1 := by
            rw [List.length_take]
            omega
          have hd1 : d = 1 := by
            have := hdig d (List.mem_cons_self d rest)
            omega
          -- the accumulated window value t
          have ht : (List.take w (d :: rest)).foldl (fun a b => 2 * a + b) 0
              = valBase 2 (List.take w (d :: rest)) := rfl
          rw [ht]
          have htval : valBase 2 (List.take w (d :: rest))
              = 2 ^ (w - 1) + valBase 2 (List.take (w - 1) rest) := by
            rw [htake, valBase_cons, hlt, hd1, one_mul]
          -- table entry is t • Q
          have htab : slidingT Q w (valBase 2 (List.take w (d :: rest)) - 2 ^ (w - 1))
              = valBase 2 (List.take w (d :: rest)) • Q := by
            rw [slidingT_eq, htval]
            congr 1
            omega
          rw [htab, doubleIter_eq]
          have hacc : (2 ^ w • k • Q) + valBase 2 (List.take w (d :: rest)) • Q
              = (k * 2 ^ w + valBase 2 (List.take w (d :: rest))) • Q := by
            rw [← mul_nsmul Q k (2 ^ w), nsmul_add_nsmul]
          rw [hacc]
          have hdrop : (rest.drop (w - 1)).length ≤ N := by
            rw [List.length_drop]
            omega
          have hdropd : ∀ x ∈ rest.drop (w - 1), x ≤ 1 :=
            fun x hx => hrest x (List.drop_subset (w - 1) rest hx)
          rw [ih (rest.drop (w - 1)) hdrop hdropd _]
          -- arithmetic bookkeeping: split digits into the window and the tail
          have hsplit : (d :: rest) = List.take w (d :: rest) ++ List.drop w (d :: rest) :=
            (List.take_append_drop w (d :: rest)).symm
          have hdropeq : List.drop w (d :: rest) = rest.drop (w - 1) := by
            conv_lhs => rw [← hwsub]
            rw [List.drop_succ_cons]
          have hval : valBase 2 (d :: rest)
              = valBase 2 (List.take w (d :: rest)) * 2 ^ (rest.drop (w - 1)).length
                + valBase 2 (rest.drop (w - 1)) := by
            conv_lhs => rw [hsplit]
            rw [valBase_append, hdropeq]
          congr 1
          rw [hval, List.length_cons, List.length_drop]
          have hpow : 2 ^ (rest.length + 1) = 2 ^ w * 2 ^ (rest.length - (w - 1)) := by
            rw [← pow_add]
            congr 1
            omega
          rw [hpow]
          ring

lemma sliding_ok (m : Int) (Q : G) (w : Nat) (hm : 0 ≤ m) (hw : 1 ≤ w) :
    _mult_sliding_window m Q w = .ok (m • Q) := by
  unfold _mult_sliding_window convert_number_to_base
  rw [if_neg (by omega), if_neg (by omega)]
  have hz : m • Q = m.toNat • Q := by
    rw [← natCast_zsmul, Int.toNat_of_nonneg hm]
  have h0 : (0 : G) = (0 : Nat) • Q := (zero_nsmul Q).symm
  rw [h0, slidingLoop_spec w hw Q (numberToBase m.toNat 2).length _ le_rfl
    (fun d hd => by have := numberToBase_digit_lt m.toNat 2 (by omega) d hd; omega)]
  rw [valBase_numberToBase 2 (by omega), hz]
  simp

/-! ## wNAF correctness -/

/-- MSB-first value of a signed-digit list. -/
def valW (l : List Int) : Int := l.foldl (fun a d => 2 * a + d) 0

/-- LSB-first value of a signed-digit list (the order `wnafDigits` produces). -/
def valLSB (l : List Int) : Int := l.foldr (fun d a => 2 * a + d) 0

lemma foldl_valW :
    ∀ (l : List Int) (v : Int),
      l.foldl (fun a d => 2 * a + d) v = v * 2 ^ l.length + valW l := by
  intro l
  induction l with
  | nil => intro v; simp [valW]
  | cons d rest ih =>
    intro v
    have h1 : (d :: rest).foldl (fun a d => 2 * a + d) v
        = rest.foldl (fun a d => 2 * a + d) (2 * v + d) := rfl
    have h2 : valW (d :: rest) = rest.foldl (fun a d => 2 * a + d) d := by
      simp [valW]
    rw [h1, ih (2 * v + d), h2]
    have h3 : rest.foldl (fun a d => 2 * a + d) d = d * 2 ^ rest.length + valW rest := by
      have := ih d
      simpa using this
    rw [h3]
    simp [List.length_cons, pow_succ]
    ring

lemma valW_cons (d : Int) (rest : List Int) :
    valW (d :: rest) = d * 2 ^ rest.length + valW rest := by
  have h2 : valW (d :: rest) = rest.foldl (fun a d => 2 * a + d) d := by
    simp [valW]
  rw [h2]
  have := foldl_valW rest d
  simpa using this

lemma valW_reverse (l : List Int) : valW l.reverse = valLSB l := by
  unfold valW valLSB
  rw [List.foldl_reverse]

/-- Structure lemma for `mods`: either the plain residue branch (with the
guard false) or the shifted branch (with the guard true). -/
lemma mods_cases (m : Int) (w : Nat) :
    (mods m w = m % 2 ^ w ∧ ¬ 2 * (m % 2 ^ w) ≥ 2 ^ w) ∨
      (mods m w = m % 2 ^ w - 2 ^ w ∧ 2 * (m % 2 ^ w) ≥ 2 ^ w) := by
  simp only [mods]
  split
  · next h => right; exact ⟨rfl, h⟩
  · next h => left; exact ⟨rfl, h⟩

lemma emod_pow_nonneg (m : Int) (w : Nat) : 0 ≤ m % 2 ^ w :=
  Int.emod_nonneg m (by positivity)

lemma emod_pow_lt (m : Int) (w : Nat) : m % 2 ^ w < 2 ^ w :=
  Int.emod_lt_of_pos m (by positivity)

lemma mods_dvd (m : Int) (w : Nat) : (2 : Int) ^ w ∣ (m - mods m w) := by
  have hbase : (2 : Int) ^ w ∣ (m - m % 2 ^ w) := by
    rw [Int.emod_def]
    ring_nf
    exact Dvd.intro _ (by ring)
  rcases mods_cases m w with ⟨h, _⟩ | ⟨h, _⟩
  · rw [h]; exact hbase
  · rw [h]
    have : m - (m % 2 ^ w - 2 ^ w) = (m - m % 2 ^ w) + 2 ^ w := by ring
    rw [this]
    exact dvd_add hbase dvd_rfl

lemma mods_two_dvd (m : Int) (w : Nat) (hw : 1 ≤ w) : (2 : Int) ∣ (m - mods m w) := by
  have h2 : (2 : Int) ∣ 2 ^ w := dvd_pow_self 2 (by omega)
  exact dvd_trans h2 (mods_dvd m w)

lemma mods_le (m : Int) (w : Nat) (hm : 0 ≤ m) : mods m w ≤ m := by
  have hM : m % 2 ^ w ≤ m := by
    rw [Int.emod_def]
    have hq : 0 ≤ m / 2 ^ w := Int.ediv_nonneg hm (by positivity)
    have : 0 ≤ 2 ^ w * (m / 2 ^ w) := by positivity
    omega
  rcases mods_cases m w with ⟨h, _⟩ | ⟨h, _⟩
  · omega
  · have hp : (0 : Int) < 2 ^ w := by positivity
    omega

/-- Parity: for `w ≥ 1` the signed digit has the parity of its input. -/
lemma mods_parity (m : Int) (w : Nat) (hw : 1 ≤ w) :
    mods m w % 2 = m % 2 := by
  have h2 : (2 : Int) ∣ 2 ^ w := dvd_pow_self 2 (by omega)
  have hm : m % 2 ^ w % 2 = m % 2 := Int.emod_emod_of_dvd m h2
  rcases mods_cases m w with ⟨h, _⟩ | ⟨h, _⟩
  · rw [h, hm]
  · rw [h, Int.sub_emod]
    have h0 : (2 : Int) ^ w % 2 = 0 := Int.emod_eq_zero_of_dvd h2
    rw [h0, hm]
    omega

/-- The digits the wNAF reduction may emit: zero, or `±(2k+1)` with
`2k+1 < 2^(w-1)`. -/
def GoodDigit (w : Nat) (d : Int) : Prop :=
  d = 0 ∨ ∃ k : Nat, 2 * k + 1 < 2 ^ (w - 1) ∧
    (d = ((2 * k + 1 : Nat) : Int) ∨ d = -((2 * k + 1 : Nat) : Int))

lemma pow_w_split (w : Nat) (hw : 2 ≤ w) :
    (2 : Int) ^ w = 4 * 2 ^ (w - 2) ∧ (2 : Int) ^ (w - 1) = 2 * 2 ^ (w - 2) := by
  constructor
  · have h := pow_add (2 : Int) (w - 2) 2
    rw [show w - 2 + 2 = w by omega] at h
    rw [h]; ring
  · have h := pow_add (2 : Int) (w - 2) 1
    rw [show w - 2 + 1 = w - 1 by omega] at h
    rw [h]; ring

lemma mods_good (m : Nat) (w : Nat) (hw : 2 ≤ w) (hodd : m % 2 = 1) :
    GoodDigit w (mods (m : Int) w) := by
  have hoddI : (m : Int) % 2 = 1 := by omega
  have hpar : mods (m : Int) w % 2 = 1 := by rw [mods_parity _ _ (by omega)]; exact hoddI
  have hub := emod_pow_lt (m : Int) w
  have hlb := emod_pow_nonneg (m : Int) w
  obtain ⟨h4, h2⟩ := pow_w_split w hw
  have ha : (0 : Int) < 2 ^ (w - 2) := by positivity
  have hcast : ((2 ^ (w - 1) : Nat) : Int) = (2 : Int) ^ (w - 1) := by push_cast; ring
  right
  rcases mods_cases (m : Int) w with ⟨h, hng⟩ | ⟨h, hguard⟩
  · -- positive digit  d = m % 2^w  with  2*d < 2^w
    refine ⟨(mods (m : Int) w).toNat / 2, ?_, Or.inl ?_⟩
    · -- 2 * (d.toNat / 2) + 1 < 2 ^ (w - 1), in Nat
      omega
    · push_cast
      omega
  · -- negative digit  d = m % 2^w - 2^w
    refine ⟨(- mods (m : Int) w).toNat / 2, ?_, Or.inr ?_⟩
    · omega
    · push_cast
      omega

lemma wnafDigits_val (w : Nat) (hw : 1 ≤ w) :
    ∀ (fuel m : Nat) (M : List Int),
      wnafDigits w fuel m = some M → valLSB M = (m : Int) := by
  intro fuel
  induction fuel with
  | zero =>
    intro m M h
    rw [wnafDigits] at h
    split at h
    · next h0 =>
      subst h0
      simp at h
      subst h
      rfl
    · exact absurd h (by simp)
  | succ fuel ih =>
    intro m M h
    rw [wnafDigits] at h
    by_cases h0 : m = 0
    · subst h0
      simp at h
      subst h
      rfl
    · rw [if_neg h0] at h
      by_cases hpar : m % 2 = 1
      · rw [if_pos hpar] at h
        simp only [Option.map_eq_some'] at h
        obtain ⟨M', hM', hcons⟩ := h
        subst hcons
        have hv := ih _ _ hM'
        have hle : mods (m : Int) w ≤ (m : Int) := mods_le _ w (by positivity)
        have hdvd : (2 : Int) ∣ ((m : Int) - mods (m : Int) w) := mods_two_dvd _ w hw
        have hnn : (0 : Int) ≤ (m : Int) - mods (m : Int) w := by omega
        have hcast : (((((m : Int) - mods (m : Int) w).toNat / 2 : Nat)) : Int)
            = ((m : Int) - mods (m : Int) w) / 2 := by
          push_cast
          rw [Int.toNat_of_nonneg hnn]
        show 2 * valLSB M' + mods (m : Int) w = (m : Int)
        rw [hv, hcast]
        obtain ⟨c, hc⟩ := hdvd
        rw [hc]
        rw [Int.mul_ediv_cancel_left c (by norm_num)]
        omega
      · rw [if_neg hpar] at h
        simp only [Option.map_eq_some'] at h
        obtain ⟨M', hM', hcons⟩ := h
        subst hcons
        have hv := ih _ _ hM'
        show 2 * valLSB M' + 0 = (m : Int)
        rw [hv]
        have : m % 2 = 0 := by omega
        push_cast
        omega

lemma wnafDigits_good (w : Nat) (hw : 2 ≤ w) :
    ∀ (fuel m : Nat) (M : List Int),
      wnafDigits w fuel m = some M → ∀ d ∈ M, GoodDigit w d := by
  intro fuel
  induction fuel with
  | zero =>
    intro m M h
    rw [wnafDigits] at h
    split at h
    · simp at h
      subst h
      intro d hd
      simp at hd
    · exact absurd h (by simp)
  | succ fuel ih =>
    intro m M h
    rw [wnafDigits] at h
    by_cases h0 : m = 0
    · subst h0
      simp at h
      subst h
      intro d hd
      simp at hd
    · rw [if_neg h0] at h
      by_cases hpar : m % 2 = 1
      · rw [if_pos hpar] at h
        simp only [Option.map_eq_some'] at h
        obtain ⟨M', hM', hcons⟩ := h
        subst hcons
        intro d hd
        rcases List.mem_cons.mp hd with h1 | h2
        · subst h1
          exact mods_good m w hw hpar
        · exact ih _ _ hM' d h2
      · rw [if_neg hpar] at h
        simp only [Option.map_eq_some'] at h
        obtain ⟨M', hM', hcons⟩ := h
        subst hcons
        intro d hd
        rcases List.mem_cons.mp hd with h1 | h2
        · subst h1
          exact Or.inl rfl
        · exact ih _ _ hM' d h2

/-- One odd step of the reduction strictly decreases the residual, for
`w ≥ 2`; this is exactly what fails for `w = 1`. -/
lemma wnaf_step_lt (m : Nat) (w : Nat) (hw : 2 ≤ w) (hm : 1 ≤ m) (hodd : m % 2 = 1) :
    (((m : Int) - mods (m : Int) w).toNat / 2) < m := by
  have hoddI : (m : Int) % 2 = 1 := by omega
  have hub := emod_pow_lt (m : Int) w
  have hlb := emod_pow_nonneg (m : Int) w
  obtain ⟨h4, h2⟩ := pow_w_split w hw
  have ha : (0 : Int) < 2 ^ (w - 2) := by positivity
  have hMpar : (m : Int) % 2 ^ w % 2 = 1 := by
    rw [Int.emod_emod_of_dvd _ (dvd_pow_self 2 (by omega))]
    exact hoddI
  have hMle : (m : Int) % 2 ^ w ≤ (m : Int) := by
    rw [Int.emod_def]
    have hq : 0 ≤ (m : Int) / 2 ^ w := Int.ediv_nonneg (by positivity) (by positivity)
    have : 0 ≤ (2 : Int) ^ w * ((m : Int) / 2 ^ w) := by positivity
    omega
  have key : -(mods (m : Int) w) ≤ (m : Int) - 1 := by
    rcases mods_cases (m : Int) w with ⟨h, _⟩ | ⟨h, hguard⟩
    · rw [h]; omega
    · rw [h]
      -- -d = 2^w - M ≤ 2^(w-1) ≤ M ≤ m, with equality excluded by parity
      omega
  have hle : mods (m : Int) w ≤ (m : Int) := mods_le _ w (by positivity)
  have h1 : ((m : Int) - mods (m : Int) w).toNat ≤ 2 * m - 1 := by omega
  omega

lemma wnafDigits_total (w : Nat) (hw : 2 ≤ w) :
    ∀ (m fuel : Nat), m < fuel → ∃ M, wnafDigits w fuel m = some M := by
  intro m
  induction m using Nat.strong_induction_on with
  | _ m ihm =>
    intro fuel hf
    obtain ⟨fuel, rfl⟩ : ∃ f, fuel = f + 1 := ⟨fuel - 1, by omega⟩
    rw [wnafDigits]
    by_cases h0 : m = 0
    · exact ⟨[], by rw [if_pos h0]⟩
    · rw [if_neg h0]
      by_cases hpar : m % 2 = 1
      · rw [if_pos hpar]
        have hlt := wnaf_step_lt m w hw (by omega) hpar
        obtain ⟨M', hM'⟩ := ihm _ hlt fuel (by omega)
        exact ⟨mods (m : Int) w :: M', by simp [hM']⟩
      · rw [if_neg hpar]
        have hlt : m / 2 < m := Nat.div_lt_self (by omega) (by omega)
        obtain ⟨M', hM'⟩ := ihm _ hlt fuel (by omega)
        exact ⟨0 :: M', by simp [hM']⟩

lemma zsmul_add_zsmul (Q : G) (a b : Int) : a • Q + b • Q = (a + b) • Q :=
  (add_zsmul Q a b).symm

lemma wnafPosT_eq (Q : G) : ∀ i, wnafPosT Q (Q + Q) i = (2 * i + 1) • Q := by
  intro i
  induction i with
  | zero => simp [wnafPosT]
  | succ i ih =>
    rw [wnafPosT, ih]
    have hQ2 : Q + Q = (2 : Nat) • Q := (two_nsmul Q).symm
    rw [hQ2, nsmul_add_nsmul, show 2 * i + 1 + 2 = 2 * (i + 1) + 1 by ring]

lemma half_pow (w : Nat) (hw : 1 ≤ w) : 2 ^ w / 2 = 2 ^ (w - 1) := by
  have h : 2 ^ w = 2 ^ (w - 1) * 2 := by
    rw [← pow_succ]
    congr 1
    omega
  omega

lemma wnafLoop_spec (Q : G) (w : Nat) (hw : 1 ≤ w) :
    ∀ (l : List Int), (∀ d ∈ l, GoodDigit w d) → ∀ v : Int,
      wnafLoop Q w l (v • Q) = (v * 2 ^ l.length + valW l) • Q := by
  intro l
  induction l with
  | nil => intro _ v; simp [wnafLoop, valW]
  | cons d rest ih =>
    intro hl v
    have hrest : ∀ x ∈ rest, GoodDigit w x := fun x hx => hl x (List.mem_cons_of_mem d hx)
    have hdbl : (v • Q) + (v • Q) = (2 * v) • Q := by
      rw [zsmul_add_zsmul]; congr 1; ring
    rw [wnafLoop]
    rcases hl d (List.mem_cons_self d rest) with hd0 | ⟨k, hk, hpm⟩
    · subst hd0
      rw [if_pos rfl, hdbl, ih hrest (2 * v)]
      congr 1
      rw [valW_cons]
      simp [List.length_cons, pow_succ]
      ring
    · have hhalf : 2 ^ w / 2 = 2 ^ (w - 1) := half_pow w hw
      rcases hpm with hpos | hneg
      · -- positive digit d = 2k+1
        have hd0 : ¬ d = 0 := by rw [hpos]; positivity
        have hdgt : d > 0 := by rw [hpos]; positivity
        rw [if_neg hd0, if_pos hdgt]
        have hidx : (d.toNat - 1) / 2 = k := by
          rw [hpos]
          simp only [Int.toNat_natCast]
          omega
        have htab : wnafT Q w ((d.toNat - 1) / 2) = d • Q := by
          rw [hidx]
          unfold wnafT
          simp only []
          rw [hhalf, if_pos (by omega), wnafPosT_eq, hpos, natCast_zsmul]
        rw [htab, hdbl, zsmul_add_zsmul, ih hrest (2 * v + d)]
        congr 1
        rw [valW_cons]
        simp [List.length_cons, pow_succ]
        ring
      · -- negative digit d = -(2k+1)
        have hd0 : ¬ d = 0 := by rw [hneg]; push_cast; omega
        have hdgt : ¬ d > 0 := by rw [hneg]; push_cast; omega
        rw [if_neg hd0, if_neg hdgt]
        have hdivhalf : ((2 : Int) ^ w / 2) = 2 ^ (w - 1) := by
          have h : (2 : Int) ^ w = 2 ^ (w - 1) * 2 := by
            rw [← pow_succ]
            congr 1
            omega
          omega
        have hidx : ((2 ^ w / 2 : Int) - (d + 1) / 2).toNat = 2 ^ (w - 1) + k := by
          rw [hdivhalf, hneg]
          have hd1 : (-((2 * k + 1 : Nat) : Int) + 1) / 2 = -(k : Int) := by
            push_cast
            omega
          rw [hd1]
          have hpos : (0 : Int) < 2 ^ (w - 1) := by positivity
          have hc : ((2 ^ (w - 1) : Nat) : Int) = (2 : Int) ^ (w - 1) := by push_cast; ring
          omega
        have htab : wnafT Q w ((2 ^ w / 2 : Int) - (d + 1) / 2).toNat = d • Q := by
          rw [hidx]
          unfold wnafT
          simp only []
          rw [hhalf, if_neg (by omega)]
          have hsub : 2 ^ (w - 1) + k - 2 ^ (w - 1) = k := by omega
          rw [hsub, wnafPosT_eq, hneg]
          rw [← natCast_zsmul, neg_zsmul]
        rw [htab, hdbl, zsmul_add_zsmul, ih hrest (2 * v + d)]
        congr 1
        rw [valW_cons]
        simp [List.length_cons, pow_succ]
        ring

lemma wNAF_ok (m : Int) (Q : G) (w fuel : Nat) (hm : 0 ≤ m) (hw : 2 ≤ w)
    (hfuel : m.toNat < fuel) :
    _mult_w_NAF m Q w fuel = some (.ok (m • Q)) := by
  unfold _mult_w_NAF
  rw [if_neg (by omega), if_neg (by omega)]
  by_cases h0 : m = 0
  · rw [if_pos h0, h0]
    simp
  · rw [if_neg h0]
    obtain ⟨M, hM⟩ := wnafDigits_total w hw m.toNat fuel hfuel
    rw [hM]
    have hval : valLSB M = (m.toNat : Int) := wnafDigits_val w (by omega) fuel m.toNat M hM
    have hgood : ∀ d ∈ M.reverse, GoodDigit w d := by
      intro d hd
      rw [List.mem_reverse] at hd
      exact wnafDigits_good w hw fuel m.toNat M hM d hd
    have h0Q : (0 : G) = (0 : Int) • Q := (zero_zsmul Q).symm
    simp only [Option.map_some']
    congr 1
    rw [h0Q, wnafLoop_spec Q w (by omega) M.reverse hgood 0]
    rw [valW_reverse, hval]
    rw [Int.toNat_of_nonneg hm]
    simp

/-- The `w = 1` reduction never terminates on residual 1: every fuel bound is
exhausted.  This is the infinite loop the `mods` docstring warns about. -/
lemma wnafDigits_w1_one_none : ∀ fuel, wnafDigits 1 fuel 1 = none := by
  intro fuel
  induction fuel with
  | zero => rfl
  | succ fuel ih =>
    rw [wnafDigits]
    have hmods : mods ((1 : Nat) : Int) 1 = -1 := by decide
    rw [if_neg (by norm_num), if_pos (by norm_num)]
    simp only [hmods]
    norm_num
    rw [show ((2 : Int).toNat / 2) = 1 by rfl]
    rw [ih]

/-- C1: for every scalar m ≥ 0, every Jacobian point Q (the infinity encoding
is the group zero; any other point of the curve group), and every valid
window parameter (w ≥ 1 for fixed/sliding window, w ≥ 2 for wNAF, and any
fuel bound exceeding m for the wNAF digit loop), each of the five
scalar-multiplication functions returns the Jacobian point [m]Q under the
group's addition/doubling laws, and returns infinity (the zero) when m = 0. -/
theorem mult_five_compute_smul {G : Type} [AddCommGroup G] [DecidableEq G]
    (m : Int) (Q : G) (wf ws wn fuel : Nat)
    (hm : 0 ≤ m) (hwf : 1 ≤ wf) (hws : 1 ≤ ws) (hwn : 2 ≤ wn) (hfuel : m.toNat < fuel) :
    _mult_jac_mont_ladder m Q = .ok (m • Q) ∧
    _mult_jac_base_3 m Q = .ok (m • Q) ∧
    _mult_jac_fixed_window m wf Q = .ok (m • Q) ∧
    _mult_sliding_window m Q ws = .ok (m • Q) ∧
    _mult_w_NAF m Q wn fuel = some (.ok (m • Q)) ∧
    (m = 0 → m • Q = (0 : G)) :=
  ⟨montLadder_ok m Q hm, base3_ok m Q hm, fixedWindow_ok m wf Q hm hwf,
   sliding_ok m Q ws hm hws, wNAF_ok m Q wn fuel hm hwn hfuel,
   fun h => by rw [h, zero_zsmul]⟩

/-- Witness for C1 at m = 5, Q = 1 in the group ℤ, windows 2, fuel 6. -/
theorem mult_five_compute_smul_witness :
    (0 : Int) ≤ 5 ∧ (1 : Nat) ≤ 2 ∧ (2 : Nat) ≤ 2 ∧ (5 : Int).toNat < 6 ∧
    (_mult_jac_mont_ladder 5 (1 : Int) = .ok ((5 : Int) • (1 : Int)) ∧
     _mult_jac_base_3 5 (1 : Int) = .ok ((5 : Int) • (1 : Int)) ∧
     _mult_jac_fixed_window 5 2 (1 : Int) = .ok ((5 : Int) • (1 : Int)) ∧
     _mult_sliding_window 5 (1 : Int) 2 = .ok ((5 : Int) • (1 : Int)) ∧
     _mult_w_NAF 5 (1 : Int) 2 6 = some (.ok ((5 : Int) • (1 : Int))) ∧
     ((5 : Int) = 0 → (5 : Int) • (1 : Int) = 0)) :=
  ⟨by decide, by decide, by decide, by decide,
   mult_five_compute_smul 5 1 2 2 2 6 (by decide) (by decide) (by decide) (by decide)
     (by decide)⟩

/-- C2: for every m ≥ 0, every point Q of the curve group, and valid windows,
the five multipliers produce the identical result (points being identified
exactly when their affine forms coincide, i.e. as curve-group elements). -/
theorem mult_five_agree {G : Type} [AddCommGroup G] [DecidableEq G]
    (m : Int) (Q : G) (wf ws wn fuel : Nat)
    (hm : 0 ≤ m) (hwf : 1 ≤ wf) (hws : 1 ≤ ws) (hwn : 2 ≤ wn) (hfuel : m.toNat < fuel) :
    _mult_jac_base_3 m Q = _mult_jac_mont_ladder m Q ∧
    _mult_jac_fixed_window m wf Q = _mult_jac_mont_ladder m Q ∧
    _mult_sliding_window m Q ws = _mult_jac_mont_ladder m Q ∧
    _mult_w_NAF m Q wn fuel = some (_mult_jac_mont_ladder m Q) := by
  rw [montLadder_ok m Q hm, base3_ok m Q hm, fixedWindow_ok m wf Q hm hwf,
    sliding_ok m Q ws hm hws, wNAF_ok m Q wn fuel hm hwn hfuel]
  exact ⟨rfl, rfl, rfl, rfl⟩

/-- Witness for C2 at m = 5, Q = 1 in the group ℤ, windows 2, fuel 6. -/
theorem mult_five_agree_witness :
    (0 : Int) ≤ 5 ∧ (1 : Nat) ≤ 2 ∧ (2 : Nat) ≤ 2 ∧ (5 : Int).toNat < 6 ∧
    (_mult_jac_base_3 5 (1 : Int) = _mult_jac_mont_ladder 5 (1 : Int) ∧
     _mult_jac_fixed_window 5 2 (1 : Int) = _mult_jac_mont_ladder 5 (1 : Int) ∧
     _mult_sliding_window 5 (1 : Int) 2 = _mult_jac_mont_ladder 5 (1 : Int) ∧
     _mult_w_NAF 5 (1 : Int) 2 6 = some (_mult_jac_mont_ladder 5 (1 : Int))) :=
  ⟨by decide, by decide, by decide, by decide,
   mult_five_agree 5 1 2 2 2 6 (by decide) (by decide) (by decide) (by decide) (by decide)⟩

/-- C9: every negative scalar is rejected with the InvalidScalar error by all
five scalar-multiplication functions, for every point Q, every window and
every fuel bound (the `m < 0` check is the first statement of each). -/
theorem mult_negative_scalar_rejected {G : Type} [AddCommGroup G] [DecidableEq G]
    (m : Int) (Q : G) (w fuel : Nat) (hm : m < 0) :
    _mult_jac_mont_ladder m Q = .error .invalidScalar ∧
    _mult_jac_base_3 m Q = .error .invalidScalar ∧
    _mult_jac_fixed_window m w Q = .error .invalidScalar ∧
    _mult_sliding_window m Q w = .error .invalidScalar ∧
    _mult_w_NAF m Q w fuel = some (.error .invalidScalar) := by
  refine ⟨?_, ?_, ?_, ?_, ?_⟩
  · unfold _mult_jac_mont_ladder; rw [if_pos hm]
  · unfold _mult_jac_base_3; rw [if_pos hm]
  · unfold _mult_jac_fixed_window; rw [if_pos hm]
  · unfold _mult_sliding_window; rw [if_pos hm]
  · unfold _mult_w_NAF; rw [if_pos hm]

/-- Witness for C9 at m = -1, Q = 1 in the group ℤ, window 4, fuel 10. -/
theorem mult_negative_scalar_rejected_witness :
    (-1 : Int) < 0 ∧
    (_mult_jac_mont_ladder (-1) (1 : Int) = .error .invalidScalar ∧
     _mult_jac_base_3 (-1) (1 : Int) = .error .invalidScalar ∧
     _mult_jac_fixed_window (-1) 4 (1 : Int) = .error .invalidScalar ∧
     _mult_sliding_window (-1) (1 : Int) 4 = .error .invalidScalar ∧
     _mult_w_NAF (-1) (1 : Int) 4 10 = some (.error .invalidScalar)) :=
  ⟨by decide, mult_negative_scalar_rejected (-1) 1 4 10 (by decide)⟩

/-- C4 (code bug): `_mult_w_NAF` does NOT reject w = 1.  Its only window
check is `w <= 0`; with w = 1 and m = 1 the digit-extraction while loop never
terminates (no fuel bound suffices: the residual is stuck at 1 with digit
-1, exactly as the `mods` docstring warns), and with m = 0 it returns the
infinity point normally instead of raising InvalidWindow. -/
theorem wNAF_w1_never_terminates {G : Type} [AddCommGroup G] [DecidableEq G]
    (Q : G) (fuel : Nat) :
    _mult_w_NAF 1 Q 1 fuel = none ∧
    _mult_w_NAF 0 Q 1 fuel = some (.ok 0) := by
  constructor
  · unfold _mult_w_NAF
    rw [if_neg (by norm_num), if_neg (by norm_num), if_neg (by norm_num)]
    rw [show (1 : Int).toNat = 1 from rfl, wnafDigits_w1_one_none fuel]
    rfl
  · unfold _mult_w_NAF
    rw [if_neg (by norm_num), if_neg (by norm_num), if_pos rfl]

/-! ## ECDSA (dsa.py)

The curve and the other collaborators of dsa.py (curve constants, hash-based
challenge, public-key decoding, DER decoding, modular inverse, RFC6979 nonce
derivation, the square-root used in recovery) are all external to src/ and are
bundled, modelled from the spec (sections 4.2 and 6), into one structure of
abstract operations.  Points remain elements of an abstract additive group
`Pt` as before; the functions of dsa.py itself are translated line by line. -/

/-- Modelled from the spec: the collaborator bundle consumed by dsa.py.
`p`, `n`, `h`, `GJ` are the curve constants; `jacX` is the affine
x-coordinate of a (non-infinite) Jacobian point, i.e. the two source lines
`Rx = (RJ[0]*mod_inv(RJ[2]*RJ[2], ec._p)) % ec._p`; `toPt x y` is the group
element of the Jacobian triple `(x, y, 1)`; `y_odd x odd` is `ec.y_odd`
(a y with the requested parity, or an error when x is not a curve
x-coordinate); `minv a` is `numbertheory.mod_inv(a, ec.n)`; `challenge` is
`_challenge` (hash plus `int_from_bits`); `toPub` is `to_pubkey.to_pub_tuple`;
`derDes` is `der.deserialize` restricted to `(r, s)`; `rfc` is
`rfc6979._rfc6979 (c, d)`. -/
structure Curve (Pt Msg PK Der : Type) where
  p : Nat
  n : Nat
  h : Nat
  GJ : Pt
  jacX : Pt → Nat
  toPt : Nat → Nat → Pt
  y_odd : Nat → Bool → Except DsaError Nat
  minv : Nat → Nat
  challenge : Msg → Nat
  toPub : PK → Except DsaError (Nat × Nat)
  derDes : Der → Except DsaError (Nat × Nat)
  rfc : Nat → Nat → Nat

variable {Pt Msg PK Der : Type} [AddCommGroup Pt] [DecidableEq Pt]

/-- Binary digit count of `n` (0 for 0), with an explicit fuel argument for
structural recursion; the fuel `n` itself always suffices, since the
argument is halved at every step. -/
def bitsFuel : Nat → Nat → Nat
  | 0, _ => 0
  | fuel + 1, n => if n = 0 then 0 else bitsFuel fuel (n / 2) + 1

/-- The binary digit count of `n`: `bitLen 5 = 3`, `bitLen 0 = 0`. -/
def bitLen (n : Nat) : Nat := bitsFuel n n

/-- The exact integer value of the IEEE-754 binary64 double nearest to `n`:
`n` itself when it has at most 53 bits, otherwise `n` rounded to 53
significant bits with ties to even (the exponent-overflow of doubles, at
`n` beyond roughly 2^1024, is not modelled — Python would raise there). -/
def roundFloat (n : Nat) : Nat :=
  let B := bitLen n
  if B ≤ 53 then n
  else
    let k := B - 53
    let q := n / 2 ^ k
    let r := n % 2 ^ k
    let half := 2 ^ (k - 1)
    let q' := if half < r ∨ (r = half ∧ q % 2 = 1) then q + 1 else q
    q' * 2 ^ k

/-- dsa._sign (lines 80-103).  `_mult_jac(k, ec.GJ, ec)` is the scalar
multiplier collaborator, modelled (consistently with the multiplier theorems
above) as `k • GJ`; `Rx % n` uses `jacX`.  The low-s test `s > ec.n / 2`
(line 100) is a Python int-FLOAT comparison: `ec.n / 2` is float true
division, i.e. the binary64 value nearest to n/2, which is `roundFloat n / 2`
(halving is exact in binary floating point), and the int-float comparison
itself is exact; so the test is `roundFloat S.n < 2 * s`.  For n of at most
53 bits this coincides with the exact `n < 2 * s`; for larger n — including
the default secp256k1 order — it does not. -/
def _sign (S : Curve Pt Msg PK Der) (c q k : Nat) : Except DsaError (Nat × Nat) :=
  let RJ : Pt := k • S.GJ
  let Rx := S.jacX RJ
  let r := Rx % S.n
  if r = 0 then .error .zeroSig
  else
    let s := (S.minv k * (c + r * q)) % S.n
    if s = 0 then .error .zeroSig
    else if roundFloat S.n < 2 * s then .ok (r, S.n - s) else .ok (r, s)

/-- dsa.sign (lines 43-77): challenge, private-key range check
(`int_from_prvkey`, spec: InvalidPrivateKey), nonce derivation/check, then
`_sign`. -/
def sign (S : Curve Pt Msg PK Der) (msg : Msg) (q : Nat) (k? : Option Nat) :
    Except DsaError (Nat × Nat) :=
  let c := S.challenge msg
  if ¬(0 < q ∧ q < S.n) then .error .invalidPrivateKey
  else
    let k := k?.getD (S.rfc c q)
    if ¬(0 < k ∧ k < S.n) then .error .invalidNonce
    else _sign S c q k

/-- dsa._check_sig (lines 254-263). -/
def _check_sig (S : Curve Pt Msg PK Der) (r s : Nat) : Except DsaError Unit :=
  if ¬(0 < r ∧ r < S.n) then .error .sigRange
  else if ¬(0 < s ∧ s < S.n) then .error .sigRange
  else .ok ()

/-- dsa._verhlp (lines 144-162).  The `PJ[2] == 0` test is the infinity test
(a valid Jacobian triple has Z = 0 exactly when it encodes infinity);
`_double_mult(v, PJ, u, ec.GJ, ec)` is the double-scalar multiplier
collaborator, modelled from the spec ("logically equivalent to adding two
independent scalar multiplications") as `v • PJ + u • GJ`; `assert RJ[2] != 0`
and `assert r == x` become the last two error cases. -/
def _verhlp (S : Curve Pt Msg PK Der) (c : Nat) (PJ : Pt) (r s : Nat) :
    Except DsaError Unit :=
  if PJ = 0 then .error .infinitePubKey
  else
    let w := S.minv s
    let u := c * w
    let v := r * w
    let RJ : Pt := v • PJ + u • S.GJ
    if RJ = 0 then .error .infiniteResult
    else
      let x := S.jacX RJ % S.n
      if r = x then .ok () else .error .invalidSig

/-- The signature-decoding block shared by `_verify` (lines 127-132) and
`recover_pubkeys` (lines 177-182): a tuple is validated with `_check_sig`,
bytes are decoded by the DER collaborator; errors propagate. -/
def sigDecode (S : Curve Pt Msg PK Der) (sig : (Nat × Nat) ⊕ Der) :
    Except DsaError (Nat × Nat) :=
  match sig with
  | .inl (r, s) =>
    match _check_sig S r s with
    | .ok _ => .ok (r, s)
    | .error e => .error e
  | .inr dd => S.derDes dd

/-- dsa._verify (lines 119-141): decode the signature, compute the
challenge, decode the public key, build
`PJ = (P[0], P[1], 1 if P[1] else 0)` — Z = 0, the infinity encoding, when
the y-coordinate is zero — and delegate to `_verhlp`. -/
def _verify (S : Curve Pt Msg PK Der) (msg : Msg) (P : PK)
    (sig : (Nat × Nat) ⊕ Der) : Except DsaError Unit :=
  match sigDecode S sig with
  | .error e => .error e
  | .ok (r, s) =>
    match S.toPub P with
    | .error e => .error e
    | .ok (x, y) =>
      let PJ : Pt := if y ≠ 0 then S.toPt x y else 0
      _verhlp S (S.challenge msg) PJ r s

/-- dsa.verify (lines 106-116): the try/except wrapper that converts every
error of `_verify` into `false`. -/
def verify (S : Curve Pt Msg PK Der) (msg : Msg) (P : PK)
    (sig : (Nat × Nat) ⊕ Der) : Bool :=
  match _verify S msg P sig with
  | .ok _ => true
  | .error _ => false

/-- `for j in range(h)` accumulating lists in increasing j order. -/
def recLoop {α : Type} (f : Nat → List α) : Nat → List α
  | 0 => []
  | j + 1 => recLoop f j ++ f j

/-- dsa._recover_pubkeys (lines 188-224): for each j below the cofactor,
candidate x = (r + j·n) mod p; `y_odd` failure skips the j (the outer
`except`); each parity's candidate is kept only when `_verhlp` accepts it
(the inner try/except pairs). -/
def _recover_pubkeys (S : Curve Pt Msg PK Der) (c r s : Nat) : List Pt :=
  let r1 := S.minv r
  let r1s : Int := (r1 * s : Nat)
  let r1e : Int := -((r1 * c : Nat) : Int)
  recLoop (fun j =>
    let x := (r + j * S.n) % S.p
    match S.y_odd x false with
    | .error _ => []
    | .ok yodd =>
      let RJ := S.toPt x yodd
      let Q1J := r1s • RJ + r1e • S.GJ
      (match _verhlp S c Q1J r s with
       | .ok _ => [Q1J]
       | .error _ => []) ++
      (let RJ2 := S.toPt x (S.p - yodd)
       let Q2J := r1s • RJ2 + r1e • S.GJ
       match _verhlp S c Q2J r s with
       | .ok _ => [Q2J]
       | .error _ => [])) S.h

/-- dsa.recover_pubkeys (lines 165-185): challenge, signature decoding with
`_check_sig` for tuples (errors propagate: there is no try/except here),
then the candidate list; the final `_aff_from_jac` conversion is the
identity on group elements in this embedding (accepted candidates are
never infinite, since `_verhlp` rejected Z = 0). -/
def recover_pubkeys (S : Curve Pt Msg PK Der) (msg : Msg)
    (sig : (Nat × Nat) ⊕ Der) : Except DsaError (List Pt) :=
  match sigDecode S sig with
  | .error e => .error e
  | .ok (r, s) => .ok (_recover_pubkeys S (S.challenge msg) r s)

/-- dsa._recover_pubkey (lines 227-251): `j = key_id & 0b110`,
`x = (r + j*n) % p`, parity bit `i = key_id & 0b01`, `y_odd(x, i)`, the
double multiplication, and the surrounding try/except that returns `none`
on any failure, including a failing `_verhlp`. -/
def _recover_pubkey (S : Curve Pt Msg PK Der) (key_id c r s : Nat) : Option Pt :=
  let r1 := S.minv r
  let r1s : Int := (r1 * s : Nat)
  let r1e : Int := -((r1 * c : Nat) : Int)
  let j := key_id &&& 6
  let x := (r + j * S.n) % S.p
  let i := key_id &&& 1
  match S.y_odd x (i == 1) with
  | .error _ => none
  | .ok y =>
    let RJ := S.toPt x y
    let QJ := r1s • RJ + r1e • S.GJ
    match _verhlp S c QJ r s with
    | .ok _ => some QJ
    | .error _ => none

/-- The claim's reading of `_recover_pubkey` (C8): identical to the source
except that the index j is the Bitcoin-style `key_id >>> 1` (the remaining
bits shifted right by one).  Written from the claim's words, for comparison
with the source's `key_id &&& 0b110`. -/
def _recover_pubkey_spec (S : Curve Pt Msg PK Der) (key_id c r s : Nat) : Option Pt :=
  let r1 := S.minv r
  let r1s : Int := (r1 * s : Nat)
  let r1e : Int := -((r1 * c : Nat) : Int)
  let j := key_id >>> 1
  let x := (r + j * S.n) % S.p
  let i := key_id &&& 1
  match S.y_odd x (i == 1) with
  | .error _ => none
  | .ok y =>
    let RJ := S.toPt x y
    let QJ := r1s • RJ + r1e • S.GJ
    match _verhlp S c QJ r s with
    | .ok _ => some QJ
    | .error _ => none

/-! ## DSA theorems -/

lemma sigDecode_inl (S : Curve Pt Msg PK Der) (r s : Nat) :
    sigDecode S (.inl (r, s))
      = match _check_sig S r s with
        | .ok _ => .ok (r, s)
        | .error e => .error e := rfl

/-- C6: verify is total and returns a Bool that is true exactly when the
strict verification `_verify` succeeds and false exactly when `_verify`
fails with some error — every internal failure is converted into `false`
(the try/except wrapper of dsa.verify). -/
theorem verify_never_raises (S : Curve Pt Msg PK Der) (msg : Msg) (P : PK)
    (sig : (Nat × Nat) ⊕ Der) :
    (verify S msg P sig = true ↔ _verify S msg P sig = .ok ()) ∧
    (verify S msg P sig = false ↔ ∃ e, _verify S msg P sig = .error e) := by
  refine ⟨⟨?_, ?_⟩, ⟨?_, ?_⟩⟩
  · intro hv
    unfold verify at hv
    rcases h : _verify S msg P sig with e | u
    · rw [h] at hv
      exact Bool.noConfusion hv
    · cases u
      rfl
  · intro hv
    unfold verify
    rw [hv]
  · intro hv
    rcases h : _verify S msg P sig with e | u
    · exact ⟨e, rfl⟩
    · unfold verify at hv
      rw [h] at hv
      exact Bool.noConfusion hv
  · intro hv
    obtain ⟨e, he⟩ := hv
    unfold verify
    rw [he]

lemma check_sig_range_err (S : Curve Pt Msg PK Der) (r s : Nat)
    (h : r = S.n ∨ s = S.n) : _check_sig S r s = .error .sigRange := by
  unfold _check_sig
  rcases h with h | h
  · rw [if_pos (show ¬(0 < r ∧ r < S.n) by omega)]
  · by_cases h1 : 0 < r ∧ r < S.n
    · rw [if_neg (not_not_intro h1), if_pos (show ¬(0 < s ∧ s < S.n) by omega)]
    · rw [if_pos h1]

/-- C7 (amended): a signature with r = n or s = n is rejected by verify
(returns false) but makes recover_pubkeys raise the range error — it is
propagated, not caught, so the result is an error, not an empty list
(matching spec section 7: structurally invalid signatures are rejected as
errors). -/
theorem recover_range_amended (S : Curve Pt Msg PK Der) (msg : Msg) (P : PK)
    (r s : Nat) (h : r = S.n ∨ s = S.n) :
    verify S msg P (.inl (r, s)) = false ∧
    recover_pubkeys S msg (.inl (r, s)) = .error .sigRange := by
  have hcs := check_sig_range_err S r s h
  have hsd : sigDecode S (.inl (r, s)) = (.error .sigRange : Except DsaError (Nat × Nat)) := by
    rw [sigDecode_inl, hcs]
  constructor
  · unfold verify _verify
    rw [hsd]
  · unfold recover_pubkeys
    rw [hsd]

/-- C10: when the decoded public key is an affine pair with y = 0, `_verify`
builds the Jacobian triple with Z = 0 (the infinity encoding), so `_verhlp`
rejects it as an infinite public key and verify returns false, for every
message and every signature input. -/
theorem verify_y_zero_infinite (S : Curve Pt Msg PK Der) (msg : Msg) (P : PK)
    (sig : (Nat × Nat) ⊕ Der) (x : Nat)
    (hpub : S.toPub P = .ok (x, 0)) :
    verify S msg P sig = false ∧
    (∀ r s : Nat, _check_sig S r s = .ok () →
      _verify S msg P (.inl (r, s)) = .error .infinitePubKey) := by
  have hcore : ∀ r' s' : Nat,
      (match S.toPub P with
       | .error e => .error e
       | .ok (x, y) =>
         let PJ : Pt := if y ≠ 0 then S.toPt x y else 0
         _verhlp S (S.challenge msg) PJ r' s')
        = (.error .infinitePubKey : Except DsaError Unit) := by
    intro r' s'
    rw [hpub]
    show _verhlp S (S.challenge msg) (if (0 : Nat) ≠ 0 then S.toPt x 0 else 0) r' s'
        = .error .infinitePubKey
    have hPJ : (if (0 : Nat) ≠ 0 then S.toPt x 0 else (0 : Pt)) = 0 := by simp
    rw [hPJ]
    unfold _verhlp
    rw [if_pos rfl]
  have hver : ∀ sg : (Nat × Nat) ⊕ Der, ∃ e, _verify S msg P sg = .error e := by
    intro sg
    rcases hsd : sigDecode S sg with e | ⟨r', s'⟩
    · exact ⟨e, by unfold _verify; rw [hsd]⟩
    · refine ⟨.infinitePubKey, ?_⟩
      unfold _verify
      rw [hsd]
      exact hcore r' s'
  constructor
  · unfold verify
    obtain ⟨e, he⟩ := hver sig
    rw [he]
  · intro r s hcs
    have hsd : sigDecode S (.inl (r, s)) = .ok (r, s) := by
      rw [sigDecode_inl, hcs]
    unfold _verify
    rw [hsd]
    exact hcore r s

/-- C8 (amended): `_recover_pubkey` interprets key_id with bit 0 as the
y-parity but takes the index j as `key_id & 0b110` — the remaining bits kept
in place, not shifted — so its behaviour on key_id coincides with the
Bitcoin-style reading at key_id' = 2·(key_id & 6) + (key_id & 1); and the
computed candidate is returned only when it passes strict verification,
otherwise none is returned rather than an error. -/
theorem recover_pubkey_keyid_amended (S : Curve Pt Msg PK Der)
    (key_id c r s : Nat) :
    _recover_pubkey S key_id c r s
      = _recover_pubkey_spec S (2 * (key_id &&& 6) + (key_id &&& 1)) c r s ∧
    (∀ P : Pt, _recover_pubkey S key_id c r s = some P →
      _verhlp S c P r s = .ok ()) := by
  constructor
  · have hmod : key_id &&& 1 = key_id % 2 := Nat.and_one_is_mod key_id
    have h1 : (2 * (key_id &&& 6) + (key_id &&& 1)) >>> 1 = key_id &&& 6 := by
      rw [Nat.shiftRight_eq_div_pow, pow_one, hmod]
      omega
    have h2 : (2 * (key_id &&& 6) + (key_id &&& 1)) &&& 1 = key_id &&& 1 := by
      rw [Nat.and_one_is_mod, hmod]
      omega
    unfold _recover_pubkey _recover_pubkey_spec
    rw [h1, h2]
  · intro P hp
    simp only [_recover_pubkey] at hp
    rcases hy : S.y_odd ((r + (key_id &&& 6) * S.n) % S.p) ((key_id &&& 1) == 1)
        with e | y
    · rw [hy] at hp
      exact Option.noConfusion hp
    · rw [hy] at hp
      have hp' : (match _verhlp S c
            ((((S.minv r * s : Nat) : Int)) • S.toPt ((r + (key_id &&& 6) * S.n) % S.p) y
              + (-((S.minv r * c : Nat) : Int)) • S.GJ) r s with
          | .ok _ => some ((((S.minv r * s : Nat) : Int))
              • S.toPt ((r + (key_id &&& 6) * S.n) % S.p) y
              + (-((S.minv r * c : Nat) : Int)) • S.GJ)
          | .error _ => none) = some P := hp
      rcases hv : _verhlp S c
          ((((S.minv r * s : Nat) : Int)) • S.toPt ((r + (key_id &&& 6) * S.n) % S.p) y
            + (-((S.minv r * c : Nat) : Int)) • S.GJ) r s with e | u
      · rw [hv] at hp'
        exact Option.noConfusion hp'
      · rw [hv] at hp'
        rw [Option.some.injEq] at hp'
        cases u
        rw [← hp']
        exact hv

/-! ## C3: the sign/verify round trip -/

lemma nsmul_mod (g : Pt) (n : Nat) (hg : n • g = 0) (a : Nat) :
    (a % n) • g = a • g := by
  conv_rhs => rw [← Nat.div_add_mod a n]
  rw [add_nsmul, mul_nsmul, hg]
  simp

lemma nsmul_congr_mod (g : Pt) (n : Nat) (hg : n • g = 0) (a b : Nat)
    (hab : a % n = b % n) : a • g = b • g := by
  rw [← nsmul_mod g n hg a, hab, nsmul_mod g n hg b]

/-- The verification helper accepts the signature produced by `_sign` against
the public key [d]G: the recomputed point is ±[k]G and its x-coordinate is r. -/
lemma verhlp_accepts (S : Curve Pt Msg PK Der)
    (hord1 : S.n • S.GJ = 0)
    (hord2 : ∀ a : Nat, a • S.GJ = 0 → S.n ∣ a)
    (hinv : ∀ a, a < S.n → 0 < a → (a * S.minv a) % S.n = 1)
    (hjx : ∀ P : Pt, S.jacX (-P) = S.jacX P)
    (c d k r s : Nat)
    (hd : 0 < d) (hd2 : d < S.n) (hk : 0 < k) (hk2 : k < S.n)
    (hs1 : 0 < s) (hs2 : s < S.n)
    (hr : r = S.jacX (k • S.GJ) % S.n)
    (hcase : s = (S.minv k * (c + r * d)) % S.n ∨
      s = S.n - (S.minv k * (c + r * d)) % S.n) :
    _verhlp S c (d • S.GJ) r s = .ok () := by
  have hn0 : 0 < S.n := by omega
  have hks := hinv k hk2 hk
  have hss := hinv s hs2 hs1
  -- the public key and the nonce point are not infinity
  have hPJ0 : d • S.GJ ≠ 0 := by
    intro h0
    have := hord2 d h0
    rcases this with ⟨t, ht⟩
    rcases t with _ | t
    · omega
    · have : S.n * (t + 1) ≥ S.n := Nat.le_mul_of_pos_right _ (by omega)
      omega
  have hkG : k • S.GJ ≠ 0 := by
    intro h0
    have := hord2 k h0
    rcases this with ⟨t, ht⟩
    rcases t with _ | t
    · omega
    · have : S.n * (t + 1) ≥ S.n := Nat.le_mul_of_pos_right _ (by omega)
      omega
  -- the recomputed point, as a single scalar multiple of G
  have hRJcollect : (r * S.minv s) • (d • S.GJ) + (c * S.minv s) • S.GJ
      = (d * (r * S.minv s) + c * S.minv s) • S.GJ := by
    rw [← mul_nsmul S.GJ d (r * S.minv s), nsmul_add_nsmul]
  -- the scalar is congruent to k (no low-s flip) or to n - k (flip)
  have hcast : ∀ a : Nat, ((a % S.n : Nat) : ZMod S.n) = (a : ZMod S.n) :=
    fun a => ZMod.natCast_mod a S.n
  have hksZ : (k : ZMod S.n) * (S.minv k : ZMod S.n) = 1 := by
    have := congrArg (fun t : Nat => (t : ZMod S.n)) hks
    simp only [] at this
    rw [hcast] at this
    push_cast at this
    exact this
  have hssZ : (s : ZMod S.n) * (S.minv s : ZMod S.n) = 1 := by
    have := congrArg (fun t : Nat => (t : ZMod S.n)) hss
    simp only [] at this
    rw [hcast] at this
    push_cast at this
    exact this
  have hAZ : ((d * (r * S.minv s) + c * S.minv s : Nat) : ZMod S.n)
      = (S.minv s : ZMod S.n) * ((c : ZMod S.n) + (r : ZMod S.n) * (d : ZMod S.n)) := by
    push_cast
    ring
  have hs0le : (S.minv k * (c + r * d)) % S.n ≤ S.n := le_of_lt (Nat.mod_lt _ hn0)
  have hs0Z : (((S.minv k * (c + r * d)) % S.n : Nat) : ZMod S.n)
      = (S.minv k : ZMod S.n) * ((c : ZMod S.n) + (r : ZMod S.n) * (d : ZMod S.n)) := by
    rw [hcast]
    push_cast
    ring
  have hmain : (d * (r * S.minv s) + c * S.minv s) • S.GJ = k • S.GJ ∨
      (d * (r * S.minv s) + c * S.minv s) • S.GJ = -(k • S.GJ) := by
    rcases hcase with hflat | hflip
    · -- s = s0: the scalar is k mod n
      left
      have hsZ : (s : ZMod S.n)
          = (S.minv k : ZMod S.n) * ((c : ZMod S.n) + (r : ZMod S.n) * (d : ZMod S.n)) := by
        rw [hflat, hs0Z]
      have hkey : ((d * (r * S.minv s) + c * S.minv s : Nat) : ZMod S.n)
          = ((k : Nat) : ZMod S.n) := by
        rw [hAZ]
        calc (S.minv s : ZMod S.n) * ((c : ZMod S.n) + (r : ZMod S.n) * (d : ZMod S.n))
            = ((k : ZMod S.n) * (S.minv k : ZMod S.n))
              * ((S.minv s : ZMod S.n) * ((c : ZMod S.n) + (r : ZMod S.n) * (d : ZMod S.n)))
              := by rw [hksZ]; ring
          _ = (k : ZMod S.n) * ((S.minv s : ZMod S.n)
              * ((S.minv k : ZMod S.n) * ((c : ZMod S.n) + (r : ZMod S.n) * (d : ZMod S.n))))
              := by ring
          _ = (k : ZMod S.n) * ((S.minv s : ZMod S.n) * (s : ZMod S.n)) := by rw [← hsZ]
          _ = (k : ZMod S.n) * ((s : ZMod S.n) * (S.minv s : ZMod S.n)) := by ring
          _ = (k : ZMod S.n) := by rw [hssZ, mul_one]
      have hmod := (ZMod.natCast_eq_natCast_iff _ _ _).mp hkey
      exact nsmul_congr_mod S.GJ S.n hord1 _ _ hmod
    · -- s = n - s0: the scalar is n - k mod n
      right
      have hsZ : (s : ZMod S.n)
          = -((S.minv k : ZMod S.n) * ((c : ZMod S.n) + (r : ZMod S.n) * (d : ZMod S.n))) := by
        rw [hflip, Nat.cast_sub hs0le, hs0Z, ZMod.natCast_self, zero_sub]
      have hkey : ((d * (r * S.minv s) + c * S.minv s : Nat) : ZMod S.n)
          = (((S.n - k : Nat)) : ZMod S.n) := by
        rw [hAZ, Nat.cast_sub (le_of_lt hk2), ZMod.natCast_self, zero_sub]
        calc (S.minv s : ZMod S.n) * ((c : ZMod S.n) + (r : ZMod S.n) * (d : ZMod S.n))
            = ((k : ZMod S.n) * (S.minv k : ZMod S.n))
              * ((S.minv s : ZMod S.n) * ((c : ZMod S.n) + (r : ZMod S.n) * (d : ZMod S.n)))
              := by rw [hksZ]; ring
          _ = (k : ZMod S.n) * ((S.minv s : ZMod S.n)
              * ((S.minv k : ZMod S.n) * ((c : ZMod S.n) + (r : ZMod S.n) * (d : ZMod S.n))))
              := by ring
          _ = (k : ZMod S.n) * ((S.minv s : ZMod S.n) * (-(s : ZMod S.n))) := by
              rw [hsZ]; ring_nf
          _ = -((k : ZMod S.n) * ((s : ZMod S.n) * (S.minv s : ZMod S.n))) := by ring
          _ = -(k : ZMod S.n) := by rw [hssZ, mul_one]
      have hmod := (ZMod.natCast_eq_natCast_iff _ _ _).mp hkey
      have hsm := nsmul_congr_mod S.GJ S.n hord1 _ _ hmod
      rw [hsm]
      have hadd : (S.n - k) • S.GJ + k • S.GJ = 0 := by
        rw [nsmul_add_nsmul, show S.n - k + k = S.n by omega, hord1]
      exact add_eq_zero_iff_eq_neg.mp hadd
  -- now walk through _verhlp
  simp only [_verhlp]
  rw [if_neg hPJ0, hRJcollect]
  rcases hmain with hm | hm
  · rw [hm, if_neg hkG, if_pos hr]
  · rw [hm]
    have hneg0 : -(k • S.GJ) ≠ 0 := fun h0 => hkG (neg_eq_zero.mp h0)
    rw [if_neg hneg0, hjx (k • S.GJ)]
    rw [if_pos hr]

/-- C3: for every message and private key d in [1, n-1], with any nonce k in
[1, n-1] for which signing succeeds, verifying the signature produced by
sign against the public key [d]G returns true.  The curve collaborator is
characterised by its spec contract: G generates a (sub)group whose order
divides multiples exactly at n, mod_inv inverts units mod n, and the
x-coordinate is negation-invariant. -/
theorem sign_verify_roundtrip (S : Curve Pt Msg PK Der)
    (hord1 : S.n • S.GJ = 0)
    (hord2 : ∀ a : Nat, a • S.GJ = 0 → S.n ∣ a)
    (hinv : ∀ a, a < S.n → 0 < a → (a * S.minv a) % S.n = 1)
    (hjx : ∀ P : Pt, S.jacX (-P) = S.jacX P)
    (msg : Msg) (pk : PK) (d k r s x y : Nat)
    (hd : 0 < d) (hd2 : d < S.n) (hk : 0 < k) (hk2 : k < S.n)
    (hsig : sign S msg d (some k) = .ok (r, s))
    (hpub : S.toPub pk = .ok (x, y)) (hy : y ≠ 0)
    (hpt : S.toPt x y = d • S.GJ) :
    verify S msg pk (.inl (r, s)) = true := by
  have hn0 : 0 < S.n := by omega
  -- peel the sign wrapper
  simp only [sign, Option.getD_some] at hsig
  rw [if_neg (not_not_intro ⟨hd, hd2⟩), if_neg (not_not_intro ⟨hk, hk2⟩)] at hsig
  -- peel _sign
  have hrlt : S.jacX (k • S.GJ) % S.n < S.n := Nat.mod_lt _ hn0
  have hslt : (S.minv k * (S.challenge msg + (S.jacX (k • S.GJ) % S.n) * d)) % S.n < S.n :=
    Nat.mod_lt _ hn0
  simp only [_sign] at hsig
  split_ifs at hsig with h1 h2 h3
  all_goals try exact Except.noConfusion hsig
  all_goals
    rw [Except.ok.injEq, Prod.mk.injEq] at hsig
    obtain ⟨hrr, hs⟩ := hsig
  -- in both remaining branches, assemble the verification
  · -- low-s flip branch
    have hacc := verhlp_accepts S hord1 hord2 hinv hjx (S.challenge msg) d k r s
      hd hd2 hk hk2 (by omega) (by omega) hrr.symm
      (Or.inr (by rw [← hrr]; omega))
    have hcs : _check_sig S r s = .ok () := by
      unfold _check_sig
      rw [if_neg (not_not_intro ⟨by omega, by omega⟩),
        if_neg (not_not_intro ⟨by omega, by omega⟩)]
    have hsd : sigDecode S (.inl (r, s)) = .ok (r, s) := by
      rw [sigDecode_inl, hcs]
    have hv : _verify S msg pk (.inl (r, s)) = .ok () := by
      unfold _verify
      rw [hsd, hpub]
      show _verhlp S (S.challenge msg) (if y ≠ 0 then S.toPt x y else 0) r s = .ok ()
      rw [if_pos hy, hpt]
      exact hacc
    unfold verify
    rw [hv]
  · -- no-flip branch
    have hacc := verhlp_accepts S hord1 hord2 hinv hjx (S.challenge msg) d k r s
      hd hd2 hk hk2 (by omega) (by omega) hrr.symm
      (Or.inl (by rw [← hrr, ← hs]))
    have hcs : _check_sig S r s = .ok () := by
      unfold _check_sig
      rw [if_neg (not_not_intro ⟨by omega, by omega⟩),
        if_neg (not_not_intro ⟨by omega, by omega⟩)]
    have hsd : sigDecode S (.inl (r, s)) = .ok (r, s) := by
      rw [sigDecode_inl, hcs]
    have hv : _verify S msg pk (.inl (r, s)) = .ok () := by
      unfold _verify
      rw [hsd, hpub]
      show _verhlp S (S.challenge msg) (if y ≠ 0 then S.toPt x y else 0) r s = .ok ()
      rw [if_pos hy, hpt]
      exact hacc
    unfold verify
    rw [hv]

/-! ## Concrete test models (witnesses and counterexamples) -/

instance {ε α : Type} [DecidableEq ε] [DecidableEq α] : DecidableEq (Except ε α) :=
  fun x y =>
    match x, y with
    | .ok a, .ok b =>
        if h : a = b then .isTrue (by rw [h]) else .isFalse (fun hc => h (Except.ok.inj hc))
    | .error e, .error f =>
        if h : e = f then .isTrue (by rw [h]) else .isFalse (fun hc => h (Except.error.inj hc))
    | .ok _, .error _ => .isFalse (fun hc => Except.noConfusion hc)
    | .error _, .ok _ => .isFalse (fun hc => Except.noConfusion hc)

/-- A toy instantiation of the collaborator bundle over the cyclic group
ZMod 5 (n = 5, generator 1): `jacX P = (P·P).val` is negation-invariant,
`minv` is inversion mod 5 by Fermat, `toPub pk = (1, pk)`.  Used to witness
the ECDSA theorems at concrete inputs. -/
def testC : Curve (ZMod 5) Unit Nat Unit where
  p := 7
  n := 5
  h := 1
  GJ := 1
  jacX := fun P => (P * P).val
  toPt := fun x _ => (x : ZMod 5)
  y_odd := fun _ _ => .error .pubkeyError
  minv := fun a => a ^ 3 % 5
  challenge := fun _ => 1
  toPub := fun pk => .ok (1, pk)
  derDes := fun _ => .error .derError
  rfc := fun _ _ => 1

/-- A degenerate instantiation over ℤ (n = 3, p = 7) whose `y_odd` accepts
only x = 0: it separates the two readings of key_id in `_recover_pubkey`. -/
def testC8 : Curve Int Unit Unit Unit where
  p := 7
  n := 3
  h := 1
  GJ := 0
  jacX := fun P => P.natAbs
  toPt := fun _ _ => 1
  y_odd := fun x _ => if x = 0 then .ok 1 else .error .pubkeyError
  minv := fun _ => 1
  challenge := fun _ => 0
  toPub := fun _ => .error .pubkeyError
  derDes := fun _ => .error .derError
  rfc := fun _ _ => 0

/-- The group order n and field prime p of secp256k1, the default curve of
dsa.py (curves.secp256k1, spec-modelled constants). -/
def secpN : Nat :=
  115792089237316195423570985008687907852837564279074904382605163141518161494337

def secpP : Nat :=
  115792089237316195423570985008687907853269984665640564039457584007908834671663

/-- An instantiation carrying the real secp256k1 group order (the default
`ec.n` of dsa.py) with inert collaborator stand-ins (`jacX = 1`,
`mod_inv = 1`): the low-s canonicalization of `_sign` — the behaviour at
issue — is entirely `_sign`'s own arithmetic on `S.n`. -/
def testC5 : Curve Int Unit Unit Unit where
  p := secpP
  n := secpN
  h := 1
  GJ := 1
  jacX := fun _ => 1
  toPt := fun _ _ => 1
  y_odd := fun _ _ => .error .pubkeyError
  minv := fun _ => 1
  challenge := fun _ => 0
  toPub := fun _ => .error .pubkeyError
  derDes := fun _ => .error .derError
  rfc := fun _ _ => 1

set_option maxRecDepth 8000 in
/-- C5 (code bug): on secp256k1's order n, the binary64 value of `ec.n / 2`
is exactly 2^255, which exceeds the exact n/2; at challenge c = 2^255 - 1
with q = k = 1 the computed s is exactly 2^255, the float test
`s > ec.n / 2` does not fire, and `_sign` returns s = 2^255 unflipped even
though 2·s > n — violating the guaranteed s ≤ n/2 (and the low-s purpose
stated in the code's own comment). -/
theorem sign_low_s_violated :
    _sign testC5 (2 ^ 255 - 1) 1 1 = .ok (1, 2 ^ 255) ∧
    roundFloat testC5.n = 2 ^ 256 ∧
    testC5.n < 2 * 2 ^ 255 ∧
    0 < 2 ^ 255 ∧ 2 ^ 255 < testC5.n :=
  ⟨by decide, by decide, by decide, by decide, by decide⟩

/-- Counterexample for C7: in the test model (n = 5), a signature with
r = n makes verify return false, but recover_pubkeys returns the range
error — not the empty list the claim promises. -/
theorem recover_range_counterexample :
    verify testC () 1 (.inl (5, 1)) = false ∧
    recover_pubkeys testC () (.inl (5, 1)) = .error .sigRange ∧
    recover_pubkeys testC () (.inl (5, 1)) ≠ .ok [] := by
  refine ⟨rfl, rfl, ?_⟩
  intro h
  rw [show recover_pubkeys testC () (.inl (5, 1)) = .error .sigRange from rfl] at h
  exact Except.noConfusion h

/-- Witness for C7 (amended) at r = n = 5 in the test model. -/
theorem recover_range_amended_witness :
    ((5 : Nat) = testC.n ∨ (1 : Nat) = testC.n) ∧
    (verify testC () 1 (.inl (5, 1)) = false ∧
     recover_pubkeys testC () (.inl (5, 1)) = .error .sigRange) :=
  ⟨Or.inl rfl, recover_range_amended testC () 1 5 1 (Or.inl rfl)⟩

/-- Witness for C10: public key 0 decodes to the affine pair (1, 0) with
zero y-coordinate, and verify rejects every signature for it. -/
theorem verify_y_zero_infinite_witness :
    testC.toPub 0 = .ok (1, 0) ∧
    (verify testC () 0 (.inl (1, 1)) = false ∧
     (∀ r s : Nat, _check_sig testC r s = .ok () →
       _verify testC () 0 (.inl (r, s)) = .error .infinitePubKey)) :=
  ⟨rfl, verify_y_zero_infinite testC () 0 (.inl (1, 1)) 1 rfl⟩

/-- Counterexample for C8: at key_id = 2 the source uses j = 2 (key_id & 6)
while the claim's Bitcoin-style reading demands j = 1 (key_id >> 1); in the
testC8 model the code returns a candidate and the claimed reading returns
none. -/
theorem recover_pubkey_keyid_counterexample :
    _recover_pubkey testC8 2 0 1 1 = some 1 ∧
    _recover_pubkey_spec testC8 2 0 1 1 = none ∧
    (2 : Nat) &&& 6 ≠ (2 : Nat) >>> 1 :=
  ⟨rfl, rfl, by decide⟩

/-- Witness for C8 (amended) at key_id = 2 in the testC8 model. -/
theorem recover_pubkey_keyid_amended_witness :
    (_recover_pubkey testC8 2 0 1 1
       = _recover_pubkey_spec testC8 (2 * ((2 : Nat) &&& 6) + ((2 : Nat) &&& 1)) 0 1 1) ∧
    _verhlp testC8 0 1 1 1 = .ok () :=
  ⟨(recover_pubkey_keyid_amended testC8 2 0 1 1).1,
   (recover_pubkey_keyid_amended testC8 2 0 1 1).2 1 rfl⟩

/-- Witness for C3: in the ZMod 5 model with d = k = 1 and challenge 1,
sign produces (1, 2) and verify accepts it against the public key [1]G. -/
theorem sign_verify_roundtrip_witness :
    testC.n • testC.GJ = 0 ∧
    (∀ a : Nat, a • testC.GJ = 0 → testC.n ∣ a) ∧
    (∀ a, a < testC.n → 0 < a → (a * testC.minv a) % testC.n = 1) ∧
    (∀ P : ZMod 5, testC.jacX (-P) = testC.jacX P) ∧
    0 < 1 ∧ 1 < testC.n ∧
    sign testC () 1 (some 1) = .ok (1, 2) ∧
    testC.toPub 1 = .ok (1, 1) ∧ (1 : Nat) ≠ 0 ∧
    testC.toPt 1 1 = 1 • testC.GJ ∧
    verify testC () 1 (.inl (1, 2)) = true := by
  have hord1 : testC.n • testC.GJ = 0 := by decide
  have hord2 : ∀ a : Nat, a • testC.GJ = 0 → testC.n ∣ a := by
    intro a ha
    have h1 : (a : ZMod 5) = 0 := by
      have h2 : a • (1 : ZMod 5) = (a : ZMod 5) := by rw [nsmul_eq_mul, mul_one]
      rw [← h2]
      exact ha
    exact (ZMod.natCast_zmod_eq_zero_iff_dvd a 5).mp h1
  have hinv : ∀ a, a < testC.n → 0 < a → (a * testC.minv a) % testC.n = 1 := by
    show ∀ a, a < 5 → 0 < a → (a * (a ^ 3 % 5)) % 5 = 1
    decide
  have hjx : ∀ P : ZMod 5, testC.jacX (-P) = testC.jacX P := by decide
  have hsig : sign testC () 1 (some 1) = .ok (1, 2) := rfl
  have hpub : testC.toPub 1 = .ok (1, 1) := rfl
  have hpt : testC.toPt 1 1 = 1 • testC.GJ := by decide
  refine ⟨hord1, hord2, hinv, hjx, by decide, by decide, hsig, hpub, by decide, hpt, ?_⟩
  exact sign_verify_roundtrip testC hord1 hord2 hinv hjx () 1 1 1 1 2 1 1
    (by decide) (by decide) (by decide) (by decide) hsig hpub (by decide) hpt

end Btclib
